import Mathlib

/-!
Shallow embedding of the A1-notation range-address translator in
`src/bot-monitoramento-precos-site/venv/Lib/site-packages/botcity/plugins/excel/plugin.py`:
the functions `get_column_number`, `get_column_name` and `parse_range`.

Conventions of the embedding:
* Python strings are Lean `String`s (in this Lean version a `String` wraps a
  `List Char`); `ord`/`chr` are `Char.toNat`/`Char.ofNat` (code points agree).
* The character classes of the regular expressions (`[a-zA-Z]`, `\d`, `:`)
  are modelled over ASCII code points, the domain the specification states
  (`[A-Za-z]`, `[0-9]`); likewise `str.upper` is modelled on ASCII.
* Python `int` arithmetic on the non-negative domain used by the code is `Nat`
  (`//` and `%` agree with `Nat.div`/`Nat.mod` there); values that can go
  negative (`get_column_number`'s result, row bounds) are `Int`.
* `raise ValueError('Invalid Range')` is modelled by `Except String`.
-/

/-- Code-point test for the regex class `[a-zA-Z]` ('a' = 97, 'z' = 122,
'A' = 65, 'Z' = 90). -/
def isAsciiLetter (c : Char) : Bool :=
  (97 ≤ c.toNat && c.toNat ≤ 122) || (65 ≤ c.toNat && c.toNat ≤ 90)

/-- Code-point test for the regex class `\d` restricted to ASCII ('0' = 48,
'9' = 57). -/
def isAsciiDigit (c : Char) : Bool :=
  48 ≤ c.toNat && c.toNat ≤ 57

/-- Python `str.upper` on one ASCII character: map 'a'..'z' to 'A'..'Z'. -/
def pyUpperChar (c : Char) : Char :=
  if 97 ≤ c.toNat && c.toNat ≤ 122 then Char.ofNat (c.toNat - 32) else c

/-- Python `str.upper` (ASCII domain). -/
def pyUpper (s : String) : String :=
  ⟨s.data.map pyUpperChar⟩

/-- The `for letter in reversed(column_name)` loop of `get_column_number`:
`number += (ord(letter) - ord('A') + 1) * (26 ** place); place += 1`. -/
def colNumLoop : List Char → Nat → Int → Int
  | [], _, number => number
  | letter :: rest, place, number =>
      colNumLoop rest (place + 1) (number + ((letter.toNat : Int) - 65 + 1) * 26 ^ place)

/-- `get_column_number(column_name)`: uppercase the name, read it least
significant letter first with digit values `ord(c) - ord('A') + 1`, and
subtract 1 at the end.  The source performs no validation. -/
def get_column_number (column_name : String) : Int :=
  colNumLoop (pyUpper column_name).data.reverse 0 0 - 1

/-- The `while column_number > 0` loop of `get_column_name`:
`name = chr(65 + (column_number - 1) % 26) + name; column_number //= 26`.
Total because the loop variable strictly decreases under `// 26`. -/
def nameLoop (column_number : Nat) (name : List Char) : List Char :=
  if h : 0 < column_number then
    nameLoop (column_number / 26) (Char.ofNat (65 + (column_number - 1) % 26) :: name)
  else name
termination_by column_number
decreasing_by exact Nat.div_lt_self h (by omega)

/-- `get_column_name(column_number)`: first (do-while) step takes
`chr(65 + column_number % 26)`, then the loop prepends the remaining letters.
The spec declares negative input a contract violation, so the embedding's
domain is `Nat`. -/
def get_column_name (column_number : Nat) : String :=
  ⟨nameLoop (column_number / 26) [Char.ofNat (65 + column_number % 26)]⟩

/-- The result record of `parse_range`: Python `None` is `none`. -/
structure ParsedRange where
  start_column : Option Int
  end_column : Option Int
  start_row : Option Int
  end_row : Option Int
deriving DecidableEq, Repr

/-- `re.search('(<class>+)', token).group(0)`: the leftmost maximal run of
characters of the class, or `None` when the token has none. -/
def searchFirstRun (p : Char → Bool) (s : List Char) : Option (List Char) :=
  let r := s.dropWhile (fun c => !(p c))
  if r.isEmpty then none else some (r.takeWhile p)

/-- The `:?` part of the validation regex: consume one leading ':' when
present. -/
def skipOptionalColon : List Char → List Char
  | [] => []
  | c :: rest => if c = ':' then rest else c :: rest

/-- `re.match('\A[a-zA-Z]*\d*:?[a-zA-Z]*\d*\Z', s)` as a deterministic
matcher: consume a maximal letter run, a maximal digit run, an optional
colon, a maximal letter run, a maximal digit run, and require the end of the
string.  Greedy consumption decides this regex: each next piece starts with
a character no earlier piece may consume. -/
def matchesRangeRegex (s : List Char) : Bool :=
  ((((skipOptionalColon
      ((s.dropWhile isAsciiLetter).dropWhile isAsciiDigit)).dropWhile
        isAsciiLetter).dropWhile isAsciiDigit)).isEmpty

/-- Python `range_.split(':')` for a string holding exactly one ':' (the
validated grammar allows at most one, and normalization inserts one):
the parts before and after the colon. -/
def splitOnColon (s : List Char) : List Char × List Char :=
  (s.takeWhile (fun c => c != ':'), (s.dropWhile (fun c => c != ':')).tail)

/-- Python `int()` on a non-empty digit run. -/
def pyInt (digits : List Char) : Nat :=
  digits.foldl (fun acc c => 10 * acc + (c.toNat - 48)) 0

/-- `parse_range(range_)`.  `None` input is `none`; `raise
ValueError('Invalid Range')` is `.error "Invalid Range"`. -/
def parse_range (range? : Option String) : Except String ParsedRange :=
  match range? with
  | none => .ok ⟨none, none, none, none⟩
  | some range_ =>
    if range_ = "" then .ok ⟨none, none, none, none⟩
    else if !(matchesRangeRegex range_.data) then .error "Invalid Range"
    else
      let r := if range_.data.count ':' = 0
        then range_.data ++ ':' :: range_.data else range_.data
      let se := splitOnColon r
      let start_column := searchFirstRun isAsciiLetter se.1
      let start_row := searchFirstRun isAsciiDigit se.1
      let end_column := searchFirstRun isAsciiLetter se.2
      let end_row := searchFirstRun isAsciiDigit se.2
      .ok {
        start_column := start_column.map (fun g => get_column_number ⟨g⟩)
        end_column := end_column.map (fun g => get_column_number ⟨g⟩ + 1)
        start_row := start_row.map (fun g => (pyInt g : Int) - 1)
        end_row := end_row.map (fun g => (pyInt g : Int)) }

/-- The column value the spec describes: `uppercase(s)` read as a base-26
numeral with digit values A=1 … Z=26, most significant letter first
(refinement-comparison definition, written from the spec's words). -/
def specColumnValue (s : List Char) : Int :=
  s.foldl (fun acc c => 26 * acc + ((c.toNat : Int) - 64)) 0

/-- Membership in `[A-Za-z]*[0-9]*`: after the maximal letter prefix only
digits remain. -/
def isLettersThenDigits (s : List Char) : Bool :=
  (s.dropWhile isAsciiLetter).all isAsciiDigit

/-- The grammar the spec claims for `parse_range`:
`[A-Za-z]*[0-9]*(:[A-Za-z]*[0-9]*)?` (refinement-comparison definition,
written from the spec's words). -/
def specRangeGrammar (s : List Char) : Bool :=
  match s.dropWhile (fun c => c != ':') with
  | [] => isLettersThenDigits s
  | _ :: rest => isLettersThenDigits (s.takeWhile (fun c => c != ':')) && isLettersThenDigits rest

/-- The four fields the spec derives for a two-endpoint range
`<letters₁><digits₁>:<letters₂><digits₂>`: the start column is the index of
the first letter run, the end column that of the second plus 1 (exclusive),
the start row the first digit run minus 1, the end row the second digit run,
each `none` when the run is absent. -/
def specRangeFields (l1 d1 l2 d2 : List Char) : ParsedRange where
  start_column := if l1.isEmpty then none else some (get_column_number ⟨l1⟩)
  end_column := if l2.isEmpty then none else some (get_column_number ⟨l2⟩ + 1)
  start_row := if d1.isEmpty then none else some ((pyInt d1 : Int) - 1)
  end_row := if d2.isEmpty then none else some (pyInt d2)

/-- An ASCII digit is not an ASCII letter (codes 48–57 vs 65–90/97–122). -/
theorem not_letter_of_digit {c : Char} (h : isAsciiDigit c = true) :
    isAsciiLetter c = false := by
  simp only [isAsciiDigit, Bool.and_eq_true, decide_eq_true_eq] at h
  simp only [isAsciiLetter, Bool.or_eq_false_iff, Bool.and_eq_false_iff,
    decide_eq_false_iff_not, not_le]
  omega

/-- An ASCII letter is not an ASCII digit. -/
theorem not_digit_of_letter {c : Char} (h : isAsciiLetter c = true) :
    isAsciiDigit c = false := by
  simp only [isAsciiLetter, Bool.or_eq_true, Bool.and_eq_true, decide_eq_true_eq] at h
  simp only [isAsciiDigit, Bool.and_eq_false_iff, decide_eq_false_iff_not, not_le]
  omega

/-- An ASCII letter is not the colon character. -/
theorem bne_colon_of_letter {c : Char} (h : isAsciiLetter c = true) : (c != ':') = true := by
  rcases eq_or_ne c ':' with rfl | hne
  · exact absurd h (by decide)
  · simpa using hne

/-- An ASCII digit is not the colon character. -/
theorem bne_colon_of_digit {c : Char} (h : isAsciiDigit c = true) : (c != ':') = true := by
  rcases eq_or_ne c ':' with rfl | hne
  · exact absurd h (by decide)
  · simpa using hne

/-- Every character of a letter run followed by a digit run differs from ':'. -/
theorem bne_colon_token {l d : List Char} (hl : l.all isAsciiLetter = true)
    (hd : d.all isAsciiDigit = true) : ∀ a ∈ l ++ d, (a != ':') = true := by
  intro a ha
  rcases List.mem_append.mp ha with h | h
  · exact bne_colon_of_letter (List.all_eq_true.mp hl a h)
  · exact bne_colon_of_digit (List.all_eq_true.mp hd a h)

/-- Dropping letters then digits from a letter-run/digit-run block consumes
it completely. -/
theorem letter_digit_block {l d : List Char} (hl : l.all isAsciiLetter = true)
    (hd : d.all isAsciiDigit = true) :
    ((l ++ d).dropWhile isAsciiLetter).dropWhile isAsciiDigit = [] := by
  rw [List.dropWhile_append_of_pos (List.all_eq_true.mp hl)]
  cases d with
  | nil => simp
  | cons c t =>
    have hc : isAsciiDigit c = true ∧ t.all isAsciiDigit = true := by simpa using hd
    rw [List.dropWhile_cons_of_neg (by simp [not_letter_of_digit hc.1])]
    rw [List.dropWhile_eq_nil_iff]
    intro x hx
    exact List.all_eq_true.mp hd x hx

/-- Dropping letters from a digit run followed by a colon removes nothing. -/
theorem dropWhile_letter_digits_colon {d : List Char} (r : List Char)
    (hd : d.all isAsciiDigit = true) :
    (d ++ ':' :: r).dropWhile isAsciiLetter = d ++ ':' :: r := by
  cases d with
  | nil => exact List.dropWhile_cons_of_neg (by decide)
  | cons c t =>
    have hc : isAsciiDigit c = true := by simp [List.all_cons] at hd; exact hd.1
    exact List.dropWhile_cons_of_neg (by simp [not_letter_of_digit hc])

/-- The validation regex accepts every string of the shape
letters-digits-colon-letters-digits. -/
theorem matchesRangeRegex_two_tokens (l1 d1 l2 d2 : List Char)
    (hl1 : l1.all isAsciiLetter = true) (hd1 : d1.all isAsciiDigit = true)
    (hl2 : l2.all isAsciiLetter = true) (hd2 : d2.all isAsciiDigit = true) :
    matchesRangeRegex (l1 ++ d1 ++ ':' :: (l2 ++ d2)) = true := by
  unfold matchesRangeRegex
  rw [List.append_assoc,
    List.dropWhile_append_of_pos (List.all_eq_true.mp hl1),
    dropWhile_letter_digits_colon _ hd1,
    List.dropWhile_append_of_pos (fun a ha => List.all_eq_true.mp hd1 a ha),
    List.dropWhile_cons_of_neg (by decide),
    show skipOptionalColon (':' :: (l2 ++ d2)) = l2 ++ d2 from rfl,
    letter_digit_block hl2 hd2]
  rfl

/-- The validation regex accepts every letters-digits block. -/
theorem matchesRangeRegex_one_token (l d : List Char)
    (hl : l.all isAsciiLetter = true) (hd : d.all isAsciiDigit = true) :
    matchesRangeRegex (l ++ d) = true := by
  unfold matchesRangeRegex
  rw [letter_digit_block hl hd]
  rfl

/-- Taking letters from a list that satisfies a predicate throughout keeps
the whole list. -/
theorem takeWhile_all_self {p : Char → Bool} {d : List Char} (hd : d.all p = true) :
    d.takeWhile p = d := by
  induction d with
  | nil => rfl
  | cons c t ih =>
    have h : p c = true ∧ t.all p = true := by simpa using hd
    rw [List.takeWhile_cons_of_pos h.1, ih h.2]

/-- Taking letters from a letter run followed by a digit run keeps exactly
the letter run. -/
theorem takeWhile_letter_block {t d : List Char} (ht : t.all isAsciiLetter = true)
    (hd : d.all isAsciiDigit = true) :
    (t ++ d).takeWhile isAsciiLetter = t := by
  rw [List.takeWhile_append_of_pos (List.all_eq_true.mp ht)]
  cases d with
  | nil => simp
  | cons e r =>
    have he : isAsciiDigit e = true := List.all_eq_true.mp hd e (by simp)
    rw [List.takeWhile_cons_of_neg (by simp [not_letter_of_digit he])]
    simp

/-- In a letters-digits token the first letter run is the letter prefix. -/
theorem search_letters_token (l d : List Char) (hl : l.all isAsciiLetter = true)
    (hd : d.all isAsciiDigit = true) :
    searchFirstRun isAsciiLetter (l ++ d) = if l.isEmpty then none else some l := by
  cases l with
  | nil =>
    have hdrop : d.dropWhile (fun c => !(isAsciiLetter c)) = [] := by
      rw [List.dropWhile_eq_nil_iff]
      intro x hx
      simp [not_letter_of_digit (List.all_eq_true.mp hd x hx)]
    simp [searchFirstRun, hdrop]
  | cons c t =>
    have hpair : isAsciiLetter c = true ∧ t.all isAsciiLetter = true := by simpa using hl
    have hdrop : (c :: (t ++ d)).dropWhile (fun x => !(isAsciiLetter x)) = c :: (t ++ d) :=
      List.dropWhile_cons_of_neg (by simp [hpair.1])
    have htake : (c :: (t ++ d)).takeWhile isAsciiLetter = c :: t := by
      rw [List.takeWhile_cons_of_pos hpair.1, takeWhile_letter_block hpair.2 hd]
    simp [searchFirstRun, List.cons_append, hdrop, htake]

/-- In a letters-digits token the first digit run is the digit suffix. -/
theorem search_digits_token (l d : List Char) (hl : l.all isAsciiLetter = true)
    (hd : d.all isAsciiDigit = true) :
    searchFirstRun isAsciiDigit (l ++ d) = if d.isEmpty then none else some d := by
  have hdrop : (l ++ d).dropWhile (fun c => !(isAsciiDigit c)) =
      d.dropWhile (fun c => !(isAsciiDigit c)) :=
    List.dropWhile_append_of_pos (fun a ha => by
      simp [not_digit_of_letter (List.all_eq_true.mp hl a ha)])
  cases d with
  | nil =>
    simp only [searchFirstRun, hdrop]
    simp
  | cons c t =>
    have hpair : isAsciiDigit c = true ∧ t.all isAsciiDigit = true := by simpa using hd
    have hdrop2 : (c :: t).dropWhile (fun x => !(isAsciiDigit x)) = c :: t :=
      List.dropWhile_cons_of_neg (by simp [hpair.1])
    simp [searchFirstRun, hdrop, hdrop2, takeWhile_all_self hd]

/-- Splitting at the colon of a two-token range recovers the tokens. -/
theorem splitOnColon_two_tokens (l1 d1 l2 d2 : List Char)
    (hl1 : l1.all isAsciiLetter = true) (hd1 : d1.all isAsciiDigit = true) :
    splitOnColon (l1 ++ d1 ++ ':' :: (l2 ++ d2)) = (l1 ++ d1, l2 ++ d2) := by
  unfold splitOnColon
  rw [List.takeWhile_append_of_pos (bne_colon_token hl1 hd1),
    List.takeWhile_cons_of_neg (by decide),
    List.dropWhile_append_of_pos (bne_colon_token hl1 hd1),
    List.dropWhile_cons_of_neg (by decide)]
  simp

/-- A letters-digits token contains no colon. -/
theorem count_colon_one_token (l d : List Char) (hl : l.all isAsciiLetter = true)
    (hd : d.all isAsciiDigit = true) : (l ++ d).count ':' = 0 := by
  rw [List.count_eq_zero]
  intro hmem
  have := bne_colon_token hl hd ':' hmem
  simp at this

/-- A two-token range contains its colon. -/
theorem count_colon_two_tokens (l1 d1 l2 d2 : List Char) :
    (l1 ++ d1 ++ ':' :: (l2 ++ d2)).count ':' ≠ 0 := by
  intro h
  exact absurd (List.count_eq_zero.mp h) (by simp)

/-- A string made of a non-empty character list is not the empty string. -/
theorem mk_ne_empty_of_ne_nil {l : List Char} (h : l ≠ []) : (⟨l⟩ : String) ≠ "" := by
  intro hcontra
  exact h (by simpa using congrArg String.data hcontra)

/-- Evaluation of `parse_range` on a well-formed two-endpoint range: the
validation passes, the string splits at its colon, and the four fields are
derived from the letter and digit runs of the two tokens. -/
theorem parse_range_two_tokens (l1 d1 l2 d2 : List Char)
    (hl1 : l1.all isAsciiLetter = true) (hd1 : d1.all isAsciiDigit = true)
    (hl2 : l2.all isAsciiLetter = true) (hd2 : d2.all isAsciiDigit = true) :
    parse_range (some ⟨l1 ++ d1 ++ ':' :: (l2 ++ d2)⟩) =
      .ok (specRangeFields l1 d1 l2 d2) := by
  have hne : (⟨l1 ++ d1 ++ ':' :: (l2 ++ d2)⟩ : String) ≠ "" :=
    mk_ne_empty_of_ne_nil (by simp)
  simp only [parse_range, if_neg hne,
    matchesRangeRegex_two_tokens l1 d1 l2 d2 hl1 hd1 hl2 hd2,
    Bool.not_true, Bool.false_eq_true, if_false,
    if_neg (count_colon_two_tokens l1 d1 l2 d2),
    splitOnColon_two_tokens l1 d1 l2 d2 hl1 hd1,
    search_letters_token l1 d1 hl1 hd1, search_digits_token l1 d1 hl1 hd1,
    search_letters_token l2 d2 hl2 hd2, search_digits_token l2 d2 hl2 hd2,
    specRangeFields]
  by_cases h1 : l1.isEmpty <;> by_cases h2 : d1.isEmpty <;>
    by_cases h3 : l2.isEmpty <;> by_cases h4 : d2.isEmpty <;>
    simp [h1, h2, h3, h4]

/-- Evaluation of `parse_range` on a non-empty colon-free letters-digits
token: validation passes, the token is duplicated around an inserted colon,
and the fields are derived from the duplicated tokens. -/
theorem parse_range_one_token (l d : List Char)
    (hl : l.all isAsciiLetter = true) (hd : d.all isAsciiDigit = true)
    (hne : l ++ d ≠ []) :
    parse_range (some ⟨l ++ d⟩) = .ok (specRangeFields l d l d) := by
  simp only [parse_range, if_neg (mk_ne_empty_of_ne_nil hne),
    matchesRangeRegex_one_token l d hl hd,
    Bool.not_true, Bool.false_eq_true, if_false,
    if_pos (count_colon_one_token l d hl hd),
    splitOnColon_two_tokens l d l d hl hd,
    search_letters_token l d hl hd, search_digits_token l d hl hd,
    specRangeFields]
  by_cases h1 : l.isEmpty <;> by_cases h2 : d.isEmpty <;> simp [h1, h2]

/-- A member of a list is a member of its `dropWhile` remainder unless it
satisfies the dropped predicate. -/
theorem mem_dropWhile_or {p : Char → Bool} {l : List Char} {c : Char} (h : c ∈ l) :
    c ∈ l.dropWhile p ∨ p c = true := by
  induction l with
  | nil => cases h
  | cons a t ih =>
    by_cases hpa : p a = true
    · rw [List.dropWhile_cons_of_pos hpa]
      rcases List.mem_cons.mp h with rfl | hmem
      · exact Or.inr hpa
      · exact ih hmem
    · rw [List.dropWhile_cons_of_neg (by simpa using hpa)]
      exact Or.inl h

/-- A member of a list survives `skipOptionalColon` unless it is a colon. -/
theorem mem_skipOptionalColon_or {l : List Char} {c : Char} (h : c ∈ l) :
    c ∈ skipOptionalColon l ∨ c = ':' := by
  cases l with
  | nil => cases h
  | cons a t =>
    rw [show skipOptionalColon (a :: t) = if a = ':' then t else a :: t from rfl]
    by_cases ha : a = ':'
    · rw [if_pos ha]
      rcases List.mem_cons.mp h with rfl | hm
      · exact Or.inr ha
      · exact Or.inl hm
    · rw [if_neg ha]
      exact Or.inl h

/-- Every character of a string accepted by the validation regex is a
letter, a digit, or the colon. -/
theorem class_of_matches {s : List Char} (hm : matchesRangeRegex s = true) :
    ∀ c ∈ s, isAsciiLetter c = true ∨ isAsciiDigit c = true ∨ c = ':' := by
  intro c hc
  unfold matchesRangeRegex at hm
  rw [List.isEmpty_iff] at hm
  rcases mem_dropWhile_or (p := isAsciiLetter) hc with h1 | h1
  · rcases mem_dropWhile_or (p := isAsciiDigit) h1 with h2 | h2
    · rcases mem_skipOptionalColon_or h2 with h3 | h3
      · rcases mem_dropWhile_or (p := isAsciiLetter) h3 with h4 | h4
        · rcases mem_dropWhile_or (p := isAsciiDigit) h4 with h5 | h5
          · rw [hm] at h5
            cases h5
          · exact Or.inr (Or.inl h5)
        · exact Or.inl h4
      · exact Or.inr (Or.inr h3)
    · exact Or.inr (Or.inl h2)
  · exact Or.inl h1

/-- Every accepted string holding a colon decomposes as a letter run, a
digit run, the colon, a letter run and a digit run. -/
theorem colon_split_of_matches {s : List Char} (hm : matchesRangeRegex s = true)
    (hc : ':' ∈ s) :
    ∃ l1 d1 l2 d2 : List Char,
      s = l1 ++ d1 ++ ':' :: (l2 ++ d2) ∧
      l1.all isAsciiLetter = true ∧ d1.all isAsciiDigit = true ∧
      l2.all isAsciiLetter = true ∧ d2.all isAsciiDigit = true := by
  have hmem : ':' ∈ (s.dropWhile isAsciiLetter).dropWhile isAsciiDigit := by
    rcases mem_dropWhile_or (p := isAsciiLetter) hc with h | h
    · rcases mem_dropWhile_or (p := isAsciiDigit) h with h2 | h2
      · exact h2
      · exact absurd h2 (by decide)
    · exact absurd h (by decide)
  unfold matchesRangeRegex at hm
  rw [List.isEmpty_iff] at hm
  obtain ⟨rest, hrest⟩ : ∃ rest, (s.dropWhile isAsciiLetter).dropWhile isAsciiDigit =
      ':' :: rest := by
    cases hB : (s.dropWhile isAsciiLetter).dropWhile isAsciiDigit with
    | nil =>
      rw [hB] at hmem
      cases hmem
    | cons b t =>
      refine ⟨t, ?_⟩
      by_cases hb : b = ':'
      · rw [hb]
      · exfalso
        rw [hB] at hm hmem
        rw [show skipOptionalColon (b :: t) = b :: t from by
          simp [skipOptionalColon, hb]] at hm
        rcases mem_dropWhile_or (p := isAsciiLetter) hmem with h | h
        · rcases mem_dropWhile_or (p := isAsciiDigit) h with h2 | h2
          · rw [hm] at h2
            cases h2
          · exact absurd h2 (by decide)
        · exact absurd h (by decide)
  rw [hrest, show skipOptionalColon (':' :: rest) = rest from rfl] at hm
  refine ⟨s.takeWhile isAsciiLetter, (s.dropWhile isAsciiLetter).takeWhile isAsciiDigit,
    rest.takeWhile isAsciiLetter, rest.dropWhile isAsciiLetter, ?_, ?_, ?_, ?_, ?_⟩
  · rw [List.append_assoc]
    conv_lhs => rw [← List.takeWhile_append_dropWhile (p := isAsciiLetter) (l := s)]
    congr 1
    conv_lhs => rw [← List.takeWhile_append_dropWhile (p := isAsciiDigit)
      (l := s.dropWhile isAsciiLetter)]
    rw [hrest]
    congr 1
    exact congrArg (List.cons ':')
      (List.takeWhile_append_dropWhile (p := isAsciiLetter) (l := rest)).symm
  · exact List.all_takeWhile
  · exact List.all_takeWhile
  · exact List.all_takeWhile
  · exact List.all_eq_true.mpr (List.dropWhile_eq_nil_iff.mp hm)

/-- The place-value accumulation over the reversed name equals the
most-significant-first Horner evaluation the spec describes. -/
theorem colNumLoop_horner (l : List Char) : ∀ (place : Nat) (acc : Int),
    colNumLoop l place acc = acc + 26 ^ place * specColumnValue l.reverse := by
  induction l with
  | nil =>
    intro place acc
    simp [colNumLoop, specColumnValue]
  | cons c t ih =>
    intro place acc
    simp only [colNumLoop, ih, specColumnValue, List.reverse_cons, List.foldl_append,
      List.foldl_cons, List.foldl_nil]
    rw [pow_succ]
    ring

/-- `get_column_number` computes the spec's base-26 value of the uppercased
input, minus one — for every input string. -/
theorem get_column_number_horner (s : String) :
    get_column_number s = specColumnValue (pyUpper s).data - 1 := by
  unfold get_column_number
  rw [colNumLoop_horner]
  simp

/-- Characters emitted by the naming loop lie between 'A' and 'Z'. -/
theorem emitted_char_bounds : ∀ k : Nat, k < 26 →
    'A' ≤ Char.ofNat (65 + k) ∧ Char.ofNat (65 + k) ≤ 'Z' := by decide

/-- The naming loop only prepends letters in 'A'..'Z' to its accumulator. -/
theorem nameLoop_structure : ∀ (fuel n : Nat), n ≤ fuel → ∀ name : List Char,
    ∃ pre : List Char, nameLoop n name = pre ++ name ∧
      ∀ c ∈ pre, 'A' ≤ c ∧ c ≤ 'Z' := by
  intro fuel
  induction fuel with
  | zero =>
    intro n hn name
    have h0 : n = 0 := Nat.le_zero.mp hn
    subst h0
    refine ⟨[], ?_, by simp⟩
    rw [nameLoop]
    simp
  | succ k ih =>
    intro n hn name
    by_cases hpos : 0 < n
    · have hdiv : n / 26 ≤ k := by
        have h26 : n / 26 < n := Nat.div_lt_self hpos (by omega)
        omega
      obtain ⟨pre, hEq, hMem⟩ := ih (n / 26) hdiv (Char.ofNat (65 + (n - 1) % 26) :: name)
      refine ⟨pre ++ [Char.ofNat (65 + (n - 1) % 26)], ?_, ?_⟩
      · rw [nameLoop, dif_pos hpos, hEq]
        simp
      · intro c hcm
        rcases List.mem_append.mp hcm with h | h
        · exact hMem c h
        · have hce : c = Char.ofNat (65 + (n - 1) % 26) := by simpa using h
          subst hce
          exact emitted_char_bounds _ (Nat.mod_lt _ (by omega))
    · have h0 : n = 0 := by omega
      subst h0
      refine ⟨[], ?_, by simp⟩
      rw [nameLoop]
      simp

/-- C1: the claim states the round trip
`get_column_number (get_column_name i) = i` for every `i` in `[0, 1000]`.
The code violates it: at `i = 701` the loop of `get_column_name` divides the
quotient without the bijective-base borrow, produces `"AZZ"`, and the round
trip returns 1377. -/
theorem c1_roundtrip_violation : get_column_number (get_column_name 701) = 1377 := by
  rw [show get_column_name 701 = "AZZ" from by simp [get_column_name, nameLoop]]
  decide

/-- C2: the claim lists `get_column_name` on 0, 25, 26, 701, 702.  The code
agrees on 0, 25, 26 and 702 but returns `"AZZ"` instead of the claimed
`"ZZ"` at 701. -/
theorem c2_known_values_eval :
    get_column_name 0 = "A" ∧ get_column_name 25 = "Z" ∧ get_column_name 26 = "AA" ∧
    get_column_name 701 = "AZZ" ∧ get_column_name 702 = "AAA" := by
  refine ⟨?_, ?_, ?_, ?_, ?_⟩ <;> simp [get_column_name, nameLoop]

/-- C3: the claim states `get_column_name (get_column_number s) = uppercase s`
for every letter string.  The code violates it at `s = "ZZ"`: the index is
701 but the name produced for 701 is `"AZZ"`. -/
theorem c3_roundtrip_name_violation :
    get_column_number "ZZ" = 701 ∧ pyUpper "ZZ" = "ZZ" ∧ get_column_name 701 = "AZZ" :=
  ⟨by decide, by decide, by simp [get_column_name, nameLoop]⟩

/-- C4 counterexample: `"1A"` does not match the claimed grammar
`[A-Za-z]*[0-9]*(:[A-Za-z]*[0-9]*)?`, yet `parse_range` accepts it without
error, because the code's regex allows a second letter run after the digits
even without a colon. -/
theorem c4_counterexample :
    specRangeGrammar ("1A" : String).data = false ∧
    parse_range (some "1A") = .ok ⟨some 0, some 1, some 0, some 1⟩ :=
  ⟨by decide, rfl⟩

/-- C4 amended: `parse_range` raises `Invalid Range` on a non-empty string
exactly when the code's regex `[a-zA-Z]*[0-9]*:?[a-zA-Z]*[0-9]*` rejects it;
in particular every string holding a character other than an ASCII letter,
an ASCII digit or ':' raises. -/
theorem c4_amended (s : String) (hne : s ≠ "") :
    (parse_range (some s) = .error "Invalid Range" ↔ matchesRangeRegex s.data = false) ∧
    (∀ c ∈ s.data, isAsciiLetter c = false → isAsciiDigit c = false → c ≠ ':' →
      parse_range (some s) = .error "Invalid Range") := by
  have main : parse_range (some s) = .error "Invalid Range" ↔
      matchesRangeRegex s.data = false := by
    simp only [parse_range, if_neg hne]
    cases hm : matchesRangeRegex s.data
    · simp
    · simp
  refine ⟨main, fun c hc h1 h2 h3 => main.mpr ?_⟩
  cases hm : matchesRangeRegex s.data
  · rfl
  · rcases class_of_matches hm c hc with h | h | h
    · rw [h1] at h
      cases h
    · rw [h2] at h
      cases h
    · exact absurd h h3

/-- C4 witness: the claim's example `"1A:"` instantiates the amended
theorem, and the regex indeed rejects it, so `parse_range` raises. -/
theorem c4_amended_witness :
    ("1A:" : String) ≠ "" ∧
    ((parse_range (some "1A:") = .error "Invalid Range" ↔
        matchesRangeRegex ("1A:" : String).data = false) ∧
      (∀ c ∈ ("1A:" : String).data, isAsciiLetter c = false → isAsciiDigit c = false →
        c ≠ ':' → parse_range (some "1A:") = .error "Invalid Range")) :=
  ⟨by decide, c4_amended "1A:" (by decide)⟩

/-- C5: every accepted string holding a colon splits into letter and digit
runs around it, and `parse_range` derives the four fields from those runs as
the spec states (`specRangeFields`); in particular the claim's two examples
`"B3"` and `"A1:C10"` evaluate as claimed. -/
theorem c5_two_endpoint_fields :
    (∀ s : String, matchesRangeRegex s.data = true → ':' ∈ s.data →
      ∃ l1 d1 l2 d2 : List Char,
        s.data = l1 ++ d1 ++ ':' :: (l2 ++ d2) ∧
        l1.all isAsciiLetter = true ∧ d1.all isAsciiDigit = true ∧
        l2.all isAsciiLetter = true ∧ d2.all isAsciiDigit = true ∧
        parse_range (some s) = .ok (specRangeFields l1 d1 l2 d2)) ∧
    parse_range (some "B3") = .ok ⟨some 1, some 2, some 2, some 3⟩ ∧
    parse_range (some "A1:C10") = .ok ⟨some 0, some 3, some 0, some 10⟩ := by
  refine ⟨?_, rfl, rfl⟩
  intro s hm hc
  obtain ⟨l1, d1, l2, d2, hsplit, hl1, hd1, hl2, hd2⟩ := colon_split_of_matches hm hc
  refine ⟨l1, d1, l2, d2, hsplit, hl1, hd1, hl2, hd2, ?_⟩
  rw [show s = (⟨s.data⟩ : String) from rfl, hsplit]
  exact parse_range_two_tokens l1 d1 l2 d2 hl1 hd1 hl2 hd2

/-- C5 witness: the two-endpoint example `"A1:C10"` instantiates the
universal part of the theorem. -/
theorem c5_witness :
    matchesRangeRegex ("A1:C10" : String).data = true ∧ ':' ∈ ("A1:C10" : String).data ∧
    (∃ l1 d1 l2 d2 : List Char,
      ("A1:C10" : String).data = l1 ++ d1 ++ ':' :: (l2 ++ d2) ∧
      l1.all isAsciiLetter = true ∧ d1.all isAsciiDigit = true ∧
      l2.all isAsciiLetter = true ∧ d2.all isAsciiDigit = true ∧
      parse_range (some "A1:C10") = .ok (specRangeFields l1 d1 l2 d2)) :=
  ⟨by decide, by decide, c5_two_endpoint_fields.1 "A1:C10" (by decide) (by decide)⟩

/-- C6: on every non-empty letter string, `get_column_number` computes the
spec's bijective base-26 value of the uppercased input minus 1
(`specColumnValue`), and the claim's known values and case-insensitivity
example hold. -/
theorem c6_column_number_value (s : String) (_hne : s.data ≠ [])
    (_hletters : s.data.all isAsciiLetter = true) :
    get_column_number s = specColumnValue (pyUpper s).data - 1 ∧
    get_column_number "A" = 0 ∧ get_column_number "Z" = 25 ∧
    get_column_number "AA" = 26 ∧ get_column_number "AZ" = 51 ∧
    get_column_number "BA" = 52 ∧
    get_column_number "aa" = get_column_number "AA" :=
  ⟨get_column_number_horner s, by decide, by decide, by decide, by decide, by decide,
    by decide⟩

/-- C6 witness: the theorem instantiated at the letter string `"AB"`. -/
theorem c6_witness :
    ("AB" : String).data ≠ [] ∧ ("AB" : String).data.all isAsciiLetter = true ∧
    get_column_number "AB" = specColumnValue (pyUpper "AB").data - 1 :=
  ⟨by decide, by decide, (c6_column_number_value "AB" (by decide) (by decide)).1⟩

/-- C7 counterexample: `"A1B2"` is non-empty, colon-free and accepted by
`parse_range`, yet duplicating it around a colon is rejected, so
`parse_range s ≠ parse_range (s ++ ":" ++ s)` there. -/
theorem c7_counterexample :
    ("A1B2" : String) ≠ "" ∧ ':' ∉ ("A1B2" : String).data ∧
    parse_range (some "A1B2") = .ok ⟨some 0, some 1, some 0, some 1⟩ ∧
    parse_range (some ("A1B2" ++ ":" ++ "A1B2")) = .error "Invalid Range" :=
  ⟨by decide, by decide, rfl, rfl⟩

/-- C7 amended: for a non-empty colon-free token of the letters-then-digits
shape, parsing it equals parsing its duplication around an inserted colon. -/
theorem c7_amended (l d : List Char) (hl : l.all isAsciiLetter = true)
    (hd : d.all isAsciiDigit = true) (hne : l ++ d ≠ []) :
    parse_range (some ⟨l ++ d⟩) = parse_range (some ⟨l ++ d ++ ':' :: (l ++ d)⟩) := by
  rw [parse_range_one_token l d hl hd hne,
    parse_range_two_tokens l d l d hl hd hl hd]

/-- C7 witness: the amended theorem instantiated at the single cell `"B3"`. -/
theorem c7_amended_witness :
    (['B'].all isAsciiLetter = true ∧ ['3'].all isAsciiDigit = true ∧
      ['B'] ++ ['3'] ≠ ([] : List Char)) ∧
    parse_range (some ⟨['B'] ++ ['3']⟩) =
      parse_range (some ⟨['B'] ++ ['3'] ++ ':' :: (['B'] ++ ['3'])⟩) :=
  ⟨⟨by decide, by decide, by decide⟩,
    c7_amended ['B'] ['3'] (by decide) (by decide) (by decide)⟩

/-- C8 counterexample: the claim says the empty string and non-letter input
fail with an `InvalidColumnName` error, but `get_column_number` performs no
validation and returns an ordinary integer on both: -1 on `""` and -16 on
`"1"`. -/
theorem c8_counterexample :
    get_column_number "" = -1 ∧ get_column_number "1" = -16 :=
  ⟨by decide, by decide⟩

/-- C8 amended: `get_column_number` never fails; it totally computes the
base-26 value of the uppercased input over raw character codes minus 1, so
the empty string yields -1. -/
theorem c8_amended :
    get_column_number "" = -1 ∧
    ∀ s : String, get_column_number s = specColumnValue (pyUpper s).data - 1 :=
  ⟨by decide, get_column_number_horner⟩

/-- C9: `parse_range` accepts the zero row of `"A0"` and returns the
negative inclusive lower bound -1 for `start_row`, so the returned
`start_row` is not always a valid zero-indexed inclusive bound. -/
theorem c9_zero_row_accepted :
    parse_range (some "A0") = .ok ⟨some 0, some 1, some (-1), some 0⟩ ∧ (-1 : Int) < 0 :=
  ⟨rfl, by decide⟩

/-- C10: for every non-negative `n` the naming loop terminates (the
embedding is total by the variant `n / 26 < n`) and `get_column_name n` is a
non-empty string of uppercase letters 'A'..'Z'. -/
theorem c10_name_nonempty_uppercase (n : Nat) :
    get_column_name n ≠ "" ∧ ∀ c ∈ (get_column_name n).data, 'A' ≤ c ∧ c ≤ 'Z' := by
  obtain ⟨pre, hEq, hMem⟩ := nameLoop_structure (n / 26) (n / 26) le_rfl
    [Char.ofNat (65 + n % 26)]
  have hdata : (get_column_name n).data = pre ++ [Char.ofNat (65 + n % 26)] := hEq
  constructor
  · intro hcontra
    have hnil : (get_column_name n).data = [] := by rw [hcontra]
    rw [hdata] at hnil
    simp at hnil
  · intro c hcm
    rw [hdata] at hcm
    rcases List.mem_append.mp hcm with h | h
    · exact hMem c h
    · have hce : c = Char.ofNat (65 + n % 26) := by simpa using h
      subst hce
      exact emitted_char_bounds _ (Nat.mod_lt _ (by omega))
